import Mathlib

/-!
Shallow embedding of the linear-chain CRF inference engine of
`pytorch_partial_crf` (`src/pytorch_partial_crf/crf.py` and
`src/pytorch_partial_crf/partial_crf.py`), one batch row at a time.

All batched tensor operations of the source act row-independently (the only
cross-row access, the flattened gather in `PartialCRF._numerator_score`, is
embedded for a one-row batch, where it is exact), so a batch row is embedded
as:

* emissions `em : ℕ → Fin T → ℝ` (positions `0 .. L-1` are read),
* a validity mask `mask : ℕ → Bool`,
* gold tags `tags : ℕ → Fin T`,
* candidate tag sets `allowed : ℕ → Fin T → Bool`,
* the padded length `L`.

Machine floats are embedded as exact reals; fallible tensor operations
(`gather` with an out-of-range index) return `Option`; Python's negative
indexing and slicing are embedded by `pyIndex` and `pySlice`; the live
`print` inside `PartialCRF._numerator_score` is embedded as a writer
component (the list of printed tensors).
-/

namespace PCrf

noncomputable section

open Finset

/-- The model parameters of `CRF.__init__` / `PartialCRF.__init__`:
`start_transitions`, `end_transitions` and the `transitions` matrix. -/
structure CRFParams (T : ℕ) where
  start_transitions : Fin T → ℝ
  end_transitions : Fin T → ℝ
  transitions : Fin T → Fin T → ℝ

/-- `IMPOSSIBLE_SCORE` of `partial_crf.py` line 9. -/
def IMPOSSIBLE_SCORE : ℝ := -10000000

/-- `mask.float()` read at one position: a byte mask entry cast to a float. -/
def maskF (mask : ℕ → Bool) (i : ℕ) : ℝ := if mask i then 1 else 0

/-- A byte (boolean) tensor entry cast by `.float()`. -/
def indF (b : Bool) : ℝ := if b then 1 else 0

/-- Modelled from the spec: `log_sum_exp` is imported from
`pytorch_partial_crf/utils.py`, which is not among the repository files under
`src/`.  Section 4.1 of the spec contracts it to return `log (Σ exp x)` along
the reduction axis, computed stably by subtracting the group maximum and
adding it back; in exact real arithmetic that shift is an identity, so the
embedding is the plain `log (Σ exp x)` over the tag axis. -/
def log_sum_exp {T : ℕ} (f : Fin T → ℝ) : ℝ :=
  Real.log (∑ v, Real.exp (f v))

/-- Modelled from the spec: `create_possible_tag_masks` is imported from
`pytorch_partial_crf/utils.py`, which is not among the repository files under
`src/`.  Per §2 (Candidate-Mask Builder) and §8 of the spec, from a gold tag
vector it builds the boolean allow-matrix whose row at each position is the
singleton set of that position's gold tag. -/
def create_possible_tag_masks {T : ℕ} (tags : ℕ → Fin T) (i : ℕ) (v : Fin T) :
    Bool :=
  decide (v = tags i)

/-- The masked forward recursion shared by `CRF._denominator_score`,
`CRF._forward_algorithm` (forward direction) and
`PartialCRF._numerator_score`: `alpha_0 = init` and, for `i ≥ 1`,
`alpha_i = log_sum_exp(inner, 1) * mask[i] + alpha_{i-1} * (1 - mask[i])`
where `inner(u, v) = alpha_{i-1}(u) + step_i(u, v)` collects the emission and
transition scores of step `i`. -/
def fwdAlpha {T : ℕ} (init : Fin T → ℝ) (step : ℕ → Fin T → Fin T → ℝ)
    (mask : ℕ → Bool) : ℕ → Fin T → ℝ
  | 0 => init
  | i + 1 => fun v =>
      log_sum_exp (fun u => fwdAlpha init step mask i u + step (i + 1) u v)
          * maskF mask (i + 1)
        + fwdAlpha init step mask i v * (1 - maskF mask (i + 1))

/-- `alpha = self.start_transitions.view(1, num_tags) + emissions[0]`
(crf.py line 53). -/
def crfInit {T : ℕ} (p : CRFParams T) (em : ℕ → Fin T → ℝ) (v : Fin T) : ℝ :=
  p.start_transitions v + em 0 v

/-- `inner = broadcast_alpha + emissions_score + transition_scores`
(crf.py line 64) minus the alpha summand: the per-step score added to
`alpha_{i-1}(u)` when moving to tag `v` at position `i`. -/
def crfStep {T : ℕ} (p : CRFParams T) (em : ℕ → Fin T → ℝ) (i : ℕ)
    (u v : Fin T) : ℝ :=
  em i v + p.transitions u v

/-- `CRF._denominator_score` (crf.py lines 37-71) for one batch row:
run the masked forward recursion to the last padded position and reduce
`alpha + end_transitions` by `log_sum_exp`. -/
def denominator_score {T : ℕ} (p : CRFParams T) (em : ℕ → Fin T → ℝ)
    (mask : ℕ → Bool) (L : ℕ) : ℝ :=
  log_sum_exp fun v =>
    fwdAlpha (crfInit p em) (crfStep p em) mask (L - 1) v + p.end_transitions v

/-- `mask.float().sum(0).long() - 1` (crf.py line 106) /
`mask.long().sum(dim=0) - 1` (crf.py line 232) for one row: the index of the
last valid position, as the signed integer the code computes. -/
def lastIndex (mask : ℕ → Bool) (L : ℕ) : ℤ :=
  (∑ i ∈ Finset.range L, (if mask i then (1 : ℤ) else 0)) - 1

/-- `torch.gather` along the sequence axis: the index must lie in `[0, L)`,
otherwise the operation raises a runtime error (embedded as `none`). -/
def gatherIdx (t : ℤ) (L : ℕ) : Option ℕ :=
  if 0 ≤ t ∧ t < (L : ℤ) then some t.toNat else none

/-- Advanced (bracket) indexing of a tensor axis of size `L` by a possibly
negative index, as `PartialCRF._numerator_score` line 128 performs it: a
negative index wraps around Python-style; an index outside `[-L, L)` raises
(embedded as `none`). -/
def pyIndex (t : ℤ) (L : ℕ) : Option ℕ :=
  if -(L : ℤ) ≤ t ∧ t < (L : ℤ) then some (t % (L : ℤ)).toNat else none

/-- Python list slicing `l[:t]`, as `history[:seq_ends[i]]` (crf.py line 239)
performs it: a negative stop counts from the end, and the result is clamped,
never an error. -/
def pySlice {α : Type} (t : ℤ) (l : List α) : List α :=
  l.take (if 0 ≤ t then t.toNat else ((l.length : ℤ) + t).toNat)

/-- `CRF._numerator_score` (crf.py lines 73-118) for one batch row: the gold
path score.  The loop accumulates transition and emission scores weighted by
the float mask; the last valid tag is gathered at `mask.sum - 1`, which
raises (None) when the mask is all false and the gather index is `-1`. -/
def numerator_score {T : ℕ} (p : CRFParams T) (em : ℕ → Fin T → ℝ)
    (tags : ℕ → Fin T) (mask : ℕ → Bool) (L : ℕ) : Option ℝ :=
  let score := p.start_transitions (tags 0)
      + ∑ i ∈ Finset.range (L - 1),
          (p.transitions (tags i) (tags (i + 1)) * maskF mask (i + 1)
            + em i (tags i) * maskF mask i)
  match gatherIdx (lastIndex mask L) L with
  | some lastPos =>
      let lastTag := tags lastPos
      some (score + p.end_transitions lastTag
        + em (L - 1) lastTag * maskF mask (L - 1))
  | none => none

/-- `emissions_score[(next_possible_tags == 0)] = IMPOSSIBLE_SCORE`
(partial_crf.py line 108): the emission entry at position `i` for tag `v`,
after the candidate-set masking. -/
def restrictedEmission {T : ℕ} (em : ℕ → Fin T → ℝ)
    (allowed : ℕ → Fin T → Bool) (i : ℕ) (v : Fin T) : ℝ :=
  if allowed i v = false then IMPOSSIBLE_SCORE else em i v

/-- `transition_scores = transitions * current_possible_tags * next_possible_tags`
followed by `transition_scores[(transition_scores == 0)] = IMPOSSIBLE_SCORE`
(partial_crf.py lines 112-116): the transition entry `(u, v)` used at loop
position `i` (source position `i - 1`, destination position `i`). -/
def restrictedTransition {T : ℕ} (p : CRFParams T)
    (allowed : ℕ → Fin T → Bool) (i : ℕ) (u v : Fin T) : ℝ :=
  let x := p.transitions u v * indF (allowed (i - 1) u) * indF (allowed i v)
  if x = 0 then IMPOSSIBLE_SCORE else x

/-- `alpha = start_transitions + emissions[0]` then
`alpha[(first_possible_tag == 0)] = IMPOSSIBLE_SCORE`
(partial_crf.py lines 98-99). -/
def pcrfInit {T : ℕ} (p : CRFParams T) (em : ℕ → Fin T → ℝ)
    (allowed : ℕ → Fin T → Bool) (v : Fin T) : ℝ :=
  if allowed 0 v = false then IMPOSSIBLE_SCORE
  else p.start_transitions v + em 0 v

/-- The per-step score matrix of the `PartialCRF._numerator_score` loop
(partial_crf.py lines 102-121): masked emissions plus masked transitions. -/
def pcrfStep {T : ℕ} (p : CRFParams T) (em : ℕ → Fin T → ℝ)
    (allowed : ℕ → Fin T → Bool) (i : ℕ) (u v : Fin T) : ℝ :=
  restrictedEmission em allowed i v + restrictedTransition p allowed i u v

/-- `end_transitions.expand * possible_tags[last]` followed by
`end_transitions[(end_transitions == 0)] = IMPOSSIBLE_SCORE`
(partial_crf.py lines 127-129): the end score for tag `v` given the
candidate set at the gathered last position. -/
def restrictedEnd {T : ℕ} (p : CRFParams T) (allowed : ℕ → Fin T → Bool)
    (lastPos : ℕ) (v : Fin T) : ℝ :=
  let x := p.end_transitions v * indF (allowed lastPos v)
  if x = 0 then IMPOSSIBLE_SCORE else x

/-- `PartialCRF._numerator_score` (partial_crf.py lines 74-132) for a
one-row batch.  The first component is the returned score (`none` would mean
a raised indexing error, which for `L ≥ 1` never happens because the
flattened advanced indexing of line 128 wraps negative indices around); the
second component is the list of tensors printed by the live `print(alpha)`
of line 100. -/
def PartialCRF_numerator_score {T : ℕ} (p : CRFParams T)
    (em : ℕ → Fin T → ℝ) (mask : ℕ → Bool) (allowed : ℕ → Fin T → Bool)
    (L : ℕ) : Option ℝ × List (Fin T → ℝ) :=
  let alphaInit := pcrfInit p em allowed
  let printed := [alphaInit]
  let alphaL := fwdAlpha alphaInit (pcrfStep p em allowed) mask (L - 1)
  match pyIndex (lastIndex mask L) L with
  | some lastPos =>
      (some (log_sum_exp fun v => alphaL v + restrictedEnd p allowed lastPos v),
        printed)
  | none => (none, printed)

/-- The forward direction of `CRF._forward_algorithm` (crf.py lines 149-169)
produces exactly the `fwdAlpha` chain of `CRF._denominator_score`; this is
the `alpha` tensor at position `j`. -/
def forwardAlgorithmAlpha {T : ℕ} (p : CRFParams T) (em : ℕ → Fin T → ℝ)
    (mask : ℕ → Bool) (j : ℕ) (v : Fin T) : ℝ :=
  fwdAlpha (crfInit p em) (crfStep p em) mask j v

/-- The reverse direction of `CRF._forward_algorithm` (crf.py lines 141-172),
indexed by the number `k` of recursion steps taken from the end: the code's
`beta` at sequence position `j` is `betaRec (L - 1 - j)`.  Each step from
position `i = L - 1 - k` to position `i - 1` is
`log_sum_exp(beta_i(u) + transitionsᵀ + emissions_i(u)) * mask[i]
 + beta_i * (1 - mask[i])`. -/
def betaRec {T : ℕ} (p : CRFParams T) (em : ℕ → Fin T → ℝ) (mask : ℕ → Bool)
    (L : ℕ) : ℕ → Fin T → ℝ
  | 0 => fun v => p.end_transitions v
  | k + 1 => fun v =>
      log_sum_exp (fun u =>
            betaRec p em mask L k u + p.transitions v u + em (L - 1 - k) u)
          * maskF mask (L - 1 - k)
        + betaRec p em mask L k v * (1 - maskF mask (L - 1 - k))

/-- `z = log_sum_exp(alpha[L-1] + end_transitions)` (crf.py line 192). -/
def marginalZ {T : ℕ} (p : CRFParams T) (em : ℕ → Fin T → ℝ)
    (mask : ℕ → Bool) (L : ℕ) : ℝ :=
  log_sum_exp fun v => forwardAlgorithmAlpha p em mask (L - 1) v
    + p.end_transitions v

/-- `CRF.marginal_probabilities` (crf.py lines 176-195) with an explicit
mask, for one batch row: `exp(alpha + beta - z)` at position `j`, tag `v`. -/
def marginal_probabilities {T : ℕ} (p : CRFParams T) (em : ℕ → Fin T → ℝ)
    (mask : ℕ → Bool) (L : ℕ) (j : ℕ) (v : Fin T) : ℝ :=
  Real.exp (forwardAlgorithmAlpha p em mask j v
    + betaRec p em mask L (L - 1 - j) v
    - marginalZ p em mask L)

/-- The maximum of a score vector over tags, as `tensor.max(dim)` returns its
value component.  `T ≥ 1` is packaged as `NeZero T`. -/
def maxF {T : ℕ} [NeZero T] (f : Fin T → ℝ) : ℝ :=
  Finset.univ.sup'
    ⟨⟨0, Nat.pos_of_ne_zero (NeZero.ne T)⟩, Finset.mem_univ _⟩ f

/-- The index component of `tensor.max(dim)`: an index attaining the maximum
(the least such index, matching the deterministic CPU behaviour). -/
def argmaxF {T : ℕ} [NeZero T] (f : Fin T → ℝ) : Fin T :=
  (Finset.univ.filter fun u => maxF f ≤ f u).min' (by
    obtain ⟨i, -, hi⟩ := Finset.exists_mem_eq_sup'
      (⟨⟨0, Nat.pos_of_ne_zero (NeZero.ne T)⟩, Finset.mem_univ _⟩ :
        (Finset.univ : Finset (Fin T)).Nonempty) f
    exact ⟨i, Finset.mem_filter.mpr ⟨Finset.mem_univ _, le_of_eq hi⟩⟩)

/-- The default tag used when reading decoded lists totally. -/
def tag0 {T : ℕ} [NeZero T] : Fin T := ⟨0, Nat.pos_of_ne_zero (NeZero.ne T)⟩

/-- The Viterbi score recursion of `CRF.viterbi_decode` (crf.py lines
215-225): `next_score(v) = max_u(score(u) + transitions(u,v) + emissions_i(v))`,
kept only where the mask bit is set (`torch.where`). -/
def vitAlpha {T : ℕ} [NeZero T] (p : CRFParams T) (em : ℕ → Fin T → ℝ)
    (mask : ℕ → Bool) : ℕ → Fin T → ℝ
  | 0 => fun v => p.start_transitions v + em 0 v
  | i + 1 => fun v =>
      if mask (i + 1) then
        maxF fun u => vitAlpha p em mask i u + p.transitions u v + em (i + 1) v
      else vitAlpha p em mask i v

/-- The `history` list of `CRF.viterbi_decode` (crf.py lines 216-226): entry
`k` records, for each destination tag `v`, the argmax source tag of step
`k + 1` (appended for every step, masked or not). -/
def viterbiHistory {T : ℕ} [NeZero T] (p : CRFParams T)
    (em : ℕ → Fin T → ℝ) (mask : ℕ → Bool) (L : ℕ) :
    List (Fin T → Fin T) :=
  (List.range (L - 1)).map fun k v =>
    argmaxF fun u => vitAlpha p em mask k u + p.transitions u v + em (k + 1) v

/-- The backpointer-following loop of `CRF.viterbi_decode` (crf.py lines
237-241), fed the reversed history slice: starting from the best last tag it
repeatedly applies the recorded argmax maps, accumulating tags in reverse
order exactly as the Python loop appends them. -/
def backtrackRev {α : Type} : List (α → α) → α → List α
  | [], v => [v]
  | h :: rest, v => v :: backtrackRev rest (h v)

/-- `CRF.viterbi_decode` (crf.py lines 197-246) for one batch row with an
explicit mask: run the max-plus recursion, add `end_transitions`, pick the
argmax last tag, follow `history[:seq_ends[i]]` backwards (a Python slice:
for an all-false mask `seq_ends = -1` silently drops one entry from the end
instead of raising), and reverse. -/
def viterbi_decode {T : ℕ} [NeZero T] (p : CRFParams T)
    (em : ℕ → Fin T → ℝ) (mask : ℕ → Bool) (L : ℕ) : List (Fin T) :=
  let score := fun v => vitAlpha p em mask (L - 1) v + p.end_transitions v
  let hist := pySlice (lastIndex mask L) (viterbiHistory p em mask L)
  (backtrackRev hist.reverse (argmaxF score)).reverse

/-- `CRF.forward` (crf.py lines 26-35) for a one-row batch: an omitted mask
becomes `torch.ones_like(tags)`, and the result is
`sum(forward_score - gold_score)`, an error when the gold scorer raises. -/
def CRF_forward {T : ℕ} (p : CRFParams T) (em : ℕ → Fin T → ℝ)
    (tags : ℕ → Fin T) (maskOpt : Option (ℕ → Bool)) (L : ℕ) : Option ℝ :=
  let mask := maskOpt.getD fun _ => true
  (numerator_score p em tags mask L).map fun g =>
    denominator_score p em mask L - g

/-- `CRF.marginal_probabilities` (crf.py lines 176-195) with the optional
mask argument: an omitted mask becomes all ones. -/
def CRF_marginal_probabilities {T : ℕ} (p : CRFParams T)
    (em : ℕ → Fin T → ℝ) (maskOpt : Option (ℕ → Bool)) (L : ℕ) (j : ℕ)
    (v : Fin T) : ℝ :=
  marginal_probabilities p em (maskOpt.getD fun _ => true) L j v

/-- `CRF.viterbi_decode` (crf.py lines 197-246) with the optional mask
argument: an omitted mask becomes all ones. -/
def CRF_viterbi_decode {T : ℕ} [NeZero T] (p : CRFParams T)
    (em : ℕ → Fin T → ℝ) (maskOpt : Option (ℕ → Bool)) (L : ℕ) :
    List (Fin T) :=
  viterbi_decode p em (maskOpt.getD fun _ => true) L

/-- `PartialCRF.forward` (partial_crf.py lines 28-38) for a one-row batch:
an omitted mask becomes `torch.ones_like(tags)`, the candidate masks are
built from the gold tags, and the result is `sum(forward_score - gold_score)`
together with whatever the partial scorer printed. -/
def PartialCRF_forward {T : ℕ} (p : CRFParams T) (em : ℕ → Fin T → ℝ)
    (tags : ℕ → Fin T) (maskOpt : Option (ℕ → Bool)) (L : ℕ) :
    Option ℝ × List (Fin T → ℝ) :=
  let mask := maskOpt.getD fun _ => true
  let r := PartialCRF_numerator_score p em mask
    (create_possible_tag_masks tags) L
  (r.1.map fun g => denominator_score p em mask L - g, r.2)

/-- The brute-force score of one tag sequence read off positions
`0 .. n-1`: `start[t_0] + Σ_i emissions_i(t_i) + Σ_i transition(t_i, t_{i+1})
+ end[t_{n-1}]` (spec §8, brute-force enumeration). -/
def seqScore {T : ℕ} (p : CRFParams T) (em : ℕ → Fin T → ℝ) (n : ℕ)
    (t : ℕ → Fin T) : ℝ :=
  p.start_transitions (t 0)
    + (∑ i ∈ Finset.range n, em i (t i))
    + (∑ i ∈ Finset.range (n - 1), p.transitions (t i) (t (i + 1)))
    + p.end_transitions (t (n - 1))

/-- A length-`n` tag tuple as a total function on positions (reading
position `i` as `i % n`, which agrees with the tuple on `0 .. n-1`); lets the
brute-force enumeration range over the finite type `Fin n → Fin T`. -/
def wrapExtend {T n : ℕ} (hn : 0 < n) (t : Fin n → Fin T) : ℕ → Fin T :=
  fun i => t ⟨i % n, Nat.mod_lt i hn⟩

/-- A length-`j` tag tuple extended to a total function whose value at every
position `≥ j` is `v`: the proof device pairing a forward-recursion prefix
with the tag `v` it ends in. -/
def extFn {T j : ℕ} (t : Fin j → Fin T) (v : Fin T) : ℕ → Fin T :=
  fun i => if h : i < j then t ⟨i, h⟩ else v

/-- The score a generic masked forward recursion accumulates over the first
`m` positions of a path: the initial vector at the first tag plus the step
scores of positions `1 .. m-1`. -/
def prefScore {T : ℕ} (init : Fin T → ℝ) (step : ℕ → Fin T → Fin T → ℝ)
    (m : ℕ) (t : ℕ → Fin T) : ℝ :=
  init (t 0) + ∑ i ∈ Finset.range (m - 1), step (i + 1) (t i) (t (i + 1))

/-- The full generic path score: prefix score over `n` positions plus the
final vector at the last tag. -/
def engineSeqScore {T : ℕ} (init : Fin T → ℝ)
    (step : ℕ → Fin T → Fin T → ℝ) (fin : Fin T → ℝ) (n : ℕ)
    (t : ℕ → Fin T) : ℝ :=
  prefScore init step n t + fin (t (n - 1))

/-- Concrete inputs for witnesses: the one-tag model with all-zero
parameters. -/
def exP : CRFParams 1 := ⟨fun _ => 0, fun _ => 0, fun _ _ => 0⟩

def exEm : ℕ → Fin 1 → ℝ := fun _ _ => 0

def exTags : ℕ → Fin 1 := fun _ => 0

def exMask1 : ℕ → Bool := fun i => decide (i < 1)

/-- The all-false mask of the C8 failing input. -/
def exMask0 : ℕ → Bool := fun _ => false

/-- A candidate-set matrix allowing every tag at every position. -/
def cexAllowAll : ℕ → Fin 1 → Bool := fun _ _ => true

/-- Concrete two-tag inputs for the C3 counterexample: zero start, zero
transitions, end scores equal to 1, zero emissions, gold tag 0. -/
def c3P : CRFParams 2 := ⟨fun _ => 0, fun _ => 1, fun _ _ => 0⟩

def c3Em : ℕ → Fin 2 → ℝ := fun _ _ => 0

def c3Tags : ℕ → Fin 2 := fun _ => 0

/-! ### Masks that are a contiguous prefix

Throughout, a row whose valid positions form a contiguous prefix of length
`n` is hypothesised as `∀ i, mask i = decide (i < n)`. -/

theorem maskF_of_contiguous {n : ℕ} {mask : ℕ → Bool}
    (hm : ∀ i, mask i = decide (i < n)) (i : ℕ) :
    maskF mask i = if i < n then 1 else 0 := by
  simp [maskF, hm i]

theorem maskF_of_valid {n : ℕ} {mask : ℕ → Bool}
    (hm : ∀ i, mask i = decide (i < n)) {i : ℕ} (h : i < n) :
    maskF mask i = 1 := by
  simp [maskF, hm i, h]

theorem maskF_of_invalid {n : ℕ} {mask : ℕ → Bool}
    (hm : ∀ i, mask i = decide (i < n)) {i : ℕ} (h : n ≤ i) :
    maskF mask i = 0 := by
  simp [maskF, hm i, Nat.not_lt_of_le h]

theorem lastIndex_of_contiguous {n L : ℕ} {mask : ℕ → Bool}
    (hm : ∀ i, mask i = decide (i < n)) (hL : n ≤ L) :
    lastIndex mask L = (n : ℤ) - 1 := by
  unfold lastIndex
  have hfil : (Finset.range L).filter (fun i => mask i = true) =
      Finset.range n := by
    ext j
    simp only [Finset.mem_filter, Finset.mem_range, hm j, decide_eq_true_eq]
    exact ⟨fun h => h.2, fun h => ⟨lt_of_lt_of_le h hL, h⟩⟩
  have : (∑ i ∈ Finset.range L, (if mask i then (1 : ℤ) else 0)) = n := by
    rw [Finset.sum_boole, hfil, Finset.card_range]
  rw [this]

/-- The gold scorer evaluated in closed form on a contiguous-prefix row:
`start[tag_0] + Σ_i emissions_i(tag_i)·mask_i
 + Σ_i transition(tag_i, tag_{i+1})·mask_{i+1} + end[tag_{n-1}]`. -/
theorem numerator_score_formula {T : ℕ} (p : CRFParams T)
    (em : ℕ → Fin T → ℝ) (tags : ℕ → Fin T) {mask : ℕ → Bool} {n L : ℕ}
    (hm : ∀ i, mask i = decide (i < n)) (hn : 0 < n) (hL : n ≤ L) :
    numerator_score p em tags mask L =
      some (p.start_transitions (tags 0)
        + (∑ i ∈ Finset.range L, em i (tags i) * maskF mask i)
        + (∑ i ∈ Finset.range (L - 1),
            p.transitions (tags i) (tags (i + 1)) * maskF mask (i + 1))
        + p.end_transitions (tags (n - 1))) := by
  obtain ⟨M, rfl⟩ : ∃ M, L = M + 1 :=
    ⟨L - 1, (Nat.succ_pred_eq_of_pos (lt_of_lt_of_le hn hL)).symm⟩
  have hlast : lastIndex mask (M + 1) = (n : ℤ) - 1 :=
    lastIndex_of_contiguous hm hL
  have hga : gatherIdx (lastIndex mask (M + 1)) (M + 1) =
      some (n - 1) := by
    rw [hlast]
    unfold gatherIdx
    rw [if_pos ⟨by omega, by omega⟩]
    congr 1
    omega
  unfold numerator_score
  rw [hga]
  simp only [Option.some.injEq, Nat.add_sub_cancel]
  have hsplit : (∑ i ∈ Finset.range M,
        (p.transitions (tags i) (tags (i + 1)) * maskF mask (i + 1)
          + em i (tags i) * maskF mask i)) =
      (∑ i ∈ Finset.range M,
        p.transitions (tags i) (tags (i + 1)) * maskF mask (i + 1))
      + (∑ i ∈ Finset.range M, em i (tags i) * maskF mask i) :=
    Finset.sum_add_distrib
  have hem : (∑ i ∈ Finset.range (M + 1), em i (tags i) * maskF mask i) =
      (∑ i ∈ Finset.range M, em i (tags i) * maskF mask i)
        + em M (tags (n - 1)) * maskF mask M := by
    rw [Finset.sum_range_succ]
    congr 1
    rcases Nat.lt_or_ge M n with hMn | hMn
    · have : n = M + 1 := by omega
      subst this
      simp
    · rw [maskF_of_invalid hm hMn]
      ring
  rw [hsplit, hem]
  ring

/-- C6: on a batch row whose mask is a contiguous non-empty prefix of length
`n`, the gold scorer returns
`start[tag_0] + Σ_i emissions_i(tag_i)·mask_i
 + Σ_i transition(tag_i, tag_{i+1})·mask_{i+1} + end[tag_{n-1}]`, the last
valid tag being located via the mask sum, and the transition sum being
masked by the validity of its right endpoint (with a contiguous prefix, of
both endpoints). -/
theorem C6_gold_scorer_formula {T : ℕ} (p : CRFParams T)
    (em : ℕ → Fin T → ℝ) (tags : ℕ → Fin T) {mask : ℕ → Bool} {n L : ℕ}
    (hm : ∀ i, mask i = decide (i < n)) (hn : 0 < n) (hL : n ≤ L) :
    numerator_score p em tags mask L =
      some (p.start_transitions (tags 0)
        + (∑ i ∈ Finset.range L, em i (tags i) * maskF mask i)
        + (∑ i ∈ Finset.range (L - 1),
            p.transitions (tags i) (tags (i + 1)) * maskF mask (i + 1))
        + p.end_transitions (tags (n - 1))) :=
  numerator_score_formula p em tags hm hn hL

theorem C6_gold_scorer_formula_witness :
    (0 : ℕ) < 1 ∧ numerator_score exP exEm exTags exMask1 1 =
      some (exP.start_transitions (exTags 0)
        + (∑ i ∈ Finset.range 1, exEm i (exTags i) * maskF exMask1 i)
        + (∑ i ∈ Finset.range (1 - 1),
            exP.transitions (exTags i) (exTags (i + 1)) * maskF exMask1 (i + 1))
        + exP.end_transitions (exTags (1 - 1))) :=
  ⟨Nat.one_pos,
    C6_gold_scorer_formula exP exEm exTags (fun _ => rfl) Nat.one_pos le_rfl⟩

/-- C10: every operation with an optional mask treats an omitted mask
exactly as an all-ones mask of matching shape: `CRF.forward`,
`CRF.marginal_probabilities`, `CRF.viterbi_decode` and `PartialCRF.forward`
give identical results for `none` and for the everywhere-true mask. -/
theorem C10_none_mask_all_ones {T : ℕ} [NeZero T] (p : CRFParams T)
    (em : ℕ → Fin T → ℝ) (tags : ℕ → Fin T) (L j : ℕ) (v : Fin T) :
    CRF_forward p em tags none L
        = CRF_forward p em tags (some fun _ => true) L
      ∧ CRF_marginal_probabilities p em none L j v
        = CRF_marginal_probabilities p em (some fun _ => true) L j v
      ∧ CRF_viterbi_decode p em none L
        = CRF_viterbi_decode p em (some fun _ => true) L
      ∧ PartialCRF_forward p em tags none L
        = PartialCRF_forward p em tags (some fun _ => true) L :=
  ⟨rfl, rfl, rfl, rfl⟩

theorem C10_none_mask_all_ones_witness :
    CRF_forward exP exEm exTags none 1
        = CRF_forward exP exEm exTags (some fun _ => true) 1
      ∧ CRF_marginal_probabilities exP exEm none 1 0 0
        = CRF_marginal_probabilities exP exEm (some fun _ => true) 1 0 0
      ∧ CRF_viterbi_decode exP exEm none 1
        = CRF_viterbi_decode exP exEm (some fun _ => true) 1
      ∧ PartialCRF_forward exP exEm exTags none 1
        = PartialCRF_forward exP exEm exTags (some fun _ => true) 1 :=
  C10_none_mask_all_ones exP exEm exTags 1 0 0

/-- C4 counterexample: with every tag allowed at both endpoints but a
transition parameter equal to zero, the zero-product masking of
`PartialCRF._numerator_score` line 116 still overwrites the (allowed)
transition entry with the sentinel, so the entry differs from the value the
claim prescribes (the original transition parameter). -/
theorem C4_sentinel_iff_cex :
    restrictedTransition exP cexAllowAll 1 0 0
      ≠ (if cexAllowAll 0 0 && cexAllowAll 1 0 then exP.transitions 0 0
          else IMPOSSIBLE_SCORE) := by
  simp only [restrictedTransition, exP, cexAllowAll, indF, IMPOSSIBLE_SCORE]
  norm_num

/-- C4 amended: an emission entry is replaced by the sentinel iff its tag is
disallowed at its position; a transition entry `(u, v)` is replaced by the
sentinel iff `u` is disallowed at the source position, or `v` is disallowed
at the destination position, or the transition parameter itself is exactly
zero (the zero-product masking cannot tell a zero parameter from a
masked-out entry); otherwise both keep their original values. -/
theorem C4_sentinel_iff_amended {T : ℕ} (p : CRFParams T)
    (em : ℕ → Fin T → ℝ) (allowed : ℕ → Fin T → Bool) (i : ℕ)
    (u v : Fin T) :
    restrictedEmission em allowed i v
        = (if allowed i v then em i v else IMPOSSIBLE_SCORE)
      ∧ restrictedTransition p allowed i u v
        = (if allowed (i - 1) u = true ∧ allowed i v = true
              ∧ p.transitions u v ≠ 0
            then p.transitions u v else IMPOSSIBLE_SCORE) := by
  constructor
  · unfold restrictedEmission
    cases h : allowed i v <;> simp [h]
  · unfold restrictedTransition indF
    cases h1 : allowed (i - 1) u <;> cases h2 : allowed i v <;>
      rcases eq_or_ne (p.transitions u v) 0 with h3 | h3 <;>
      simp [h1, h2, h3]

/-- C8, evaluated at the failing input (one row, `L = 2`, `T = 1`, mask all
false): the gold scorer does raise (the gather index is `-1`, embedded as
`none`), but `viterbi_decode` silently returns a length-1 path for the
zero-length row instead of reporting an error (`history[:-1]` slices instead
of raising), and the partial scorer silently returns a score (the flattened
index `-1` wraps around to the last position). -/
theorem C8_zero_length_mask_eval :
    numerator_score exP exEm exTags exMask0 2 = none
      ∧ (viterbi_decode exP exEm exMask0 2).length = 1
      ∧ (PartialCRF_numerator_score exP exEm exMask0
          (create_possible_tag_masks exTags) 2).1.isSome = true := by
  refine ⟨?_, ?_, ?_⟩
  · simp [numerator_score, gatherIdx, lastIndex, exMask0]
  · simp [viterbi_decode, pySlice, viterbiHistory, lastIndex, exMask0,
      backtrackRev]
  · simp [PartialCRF_numerator_score, pyIndex, lastIndex, exMask0]

/-- C9, evaluated on a concrete invocation: the scoring recursion of
`PartialCRF._numerator_score` performs a print side effect (the live
`print(alpha)` of partial_crf.py line 100), modelled as the writer component
of the result: the printed list is the masked initial alpha vector, not
empty. -/
theorem C9_print_in_hot_path :
    (PartialCRF_numerator_score exP exEm exMask1
        (create_possible_tag_masks exTags) 1).2
      = [pcrfInit exP exEm (create_possible_tag_masks exTags)] := by
  unfold PartialCRF_numerator_score
  cases pyIndex (lastIndex exMask1 1) 1 <;> rfl

/-! ### Correctness of the masked forward recursion

`fwdAlpha` with a contiguous prefix mask computes, in exp space, the sum of
exponentiated path scores over all tag sequences of the valid length. -/

theorem exp_log_sum_exp {T : ℕ} [NeZero T] (f : Fin T → ℝ) :
    Real.exp (log_sum_exp f) = ∑ v, Real.exp (f v) := by
  have hne : Nonempty (Fin T) := ⟨⟨0, Nat.pos_of_ne_zero (NeZero.ne T)⟩⟩
  exact Real.exp_log
    (Finset.sum_pos (fun i _ => Real.exp_pos _) Finset.univ_nonempty)

theorem fwdAlpha_invalid_step {T : ℕ} (init : Fin T → ℝ)
    (step : ℕ → Fin T → Fin T → ℝ) {mask : ℕ → Bool} {i : ℕ}
    (h : mask (i + 1) = false) :
    fwdAlpha init step mask (i + 1) = fwdAlpha init step mask i := by
  funext v
  simp [fwdAlpha, maskF, h]

theorem fwdAlpha_valid_step {T : ℕ} (init : Fin T → ℝ)
    (step : ℕ → Fin T → Fin T → ℝ) {mask : ℕ → Bool} {i : ℕ}
    (h : mask (i + 1) = true) (v : Fin T) :
    fwdAlpha init step mask (i + 1) v
      = log_sum_exp fun u => fwdAlpha init step mask i u + step (i + 1) u v := by
  simp [fwdAlpha, maskF, h]

theorem fwdAlpha_stable {T : ℕ} (init : Fin T → ℝ)
    (step : ℕ → Fin T → Fin T → ℝ) {mask : ℕ → Bool} {n : ℕ}
    (hmask : ∀ i, n ≤ i → mask i = false) (hn : 0 < n) :
    ∀ j, n - 1 ≤ j → fwdAlpha init step mask j = fwdAlpha init step mask (n - 1) := by
  intro j hj
  induction j with
  | zero => rw [Nat.le_zero.mp hj]
  | succ k ih =>
      rcases Nat.lt_or_ge k (n - 1) with hk | hk
      · have : n - 1 = k + 1 := by omega
        rw [this]
      · have hmk : mask (k + 1) = false := hmask _ (by omega)
        rw [fwdAlpha_invalid_step init step hmk, ih hk]

theorem extFn_snoc_agree {T j : ℕ} (t : Fin j → Fin T) (u v : Fin T) {i : ℕ}
    (h : i ≤ j) : extFn (Fin.snoc t u) v i = extFn t u i := by
  unfold extFn
  rcases lt_or_eq_of_le h with h' | h'
  · rw [dif_pos (Nat.lt_succ_of_lt h'), dif_pos h']
    have hc : (⟨i, Nat.lt_succ_of_lt h'⟩ : Fin (j + 1))
        = Fin.castSucc ⟨i, h'⟩ := rfl
    rw [hc, Fin.snoc_castSucc]
  · subst h'
    rw [dif_pos (Nat.lt_succ_self i), dif_neg (lt_irrefl i)]
    have hc : (⟨i, Nat.lt_succ_self i⟩ : Fin (i + 1)) = Fin.last i := rfl
    rw [hc, Fin.snoc_last]

theorem prefScore_congr {T : ℕ} (init : Fin T → ℝ)
    (step : ℕ → Fin T → Fin T → ℝ) (m : ℕ) {s s' : ℕ → Fin T}
    (h : ∀ i, i ≤ m - 1 → s i = s' i) :
    prefScore init step m s = prefScore init step m s' := by
  unfold prefScore
  rw [h 0 (Nat.zero_le _)]
  congr 1
  refine Finset.sum_congr rfl fun i hi => ?_
  rw [Finset.mem_range] at hi
  rw [h i (by omega), h (i + 1) (by omega)]

theorem prefScore_snoc {T : ℕ} (init : Fin T → ℝ)
    (step : ℕ → Fin T → Fin T → ℝ) {j : ℕ} (t : Fin j → Fin T)
    (u v : Fin T) :
    prefScore init step (j + 2) (extFn (Fin.snoc t u) v)
      = prefScore init step (j + 1) (extFn t u) + step (j + 1) u v := by
  have hj : extFn (Fin.snoc t u) v j = u := by
    unfold extFn
    rw [dif_pos (Nat.lt_succ_self j)]
    have hc : (⟨j, Nat.lt_succ_self j⟩ : Fin (j + 1)) = Fin.last j := rfl
    rw [hc, Fin.snoc_last]
  have hj1 : extFn (Fin.snoc t u) v (j + 1) = v := by
    unfold extFn
    rw [dif_neg (lt_irrefl (j + 1))]
  have hsum : (∑ i ∈ Finset.range (j + 1),
        step (i + 1) (extFn (Fin.snoc t u) v i) (extFn (Fin.snoc t u) v (i + 1)))
      = (∑ i ∈ Finset.range j,
          step (i + 1) (extFn t u i) (extFn t u (i + 1))) + step (j + 1) u v := by
    rw [Finset.sum_range_succ]
    congr 1
    · refine Finset.sum_congr rfl fun i hi => ?_
      rw [Finset.mem_range] at hi
      rw [extFn_snoc_agree t u v (le_of_lt hi), extFn_snoc_agree t u v hi]
    · rw [hj, hj1]
  unfold prefScore
  simp only [show j + 2 - 1 = j + 1 from rfl, show j + 1 - 1 = j from rfl]
  rw [hsum, extFn_snoc_agree t u v (Nat.zero_le j)]
  ring

theorem fwdAlpha_exp_sum {T : ℕ} [NeZero T] (init : Fin T → ℝ)
    (step : ℕ → Fin T → Fin T → ℝ) {mask : ℕ → Bool} {n : ℕ}
    (hm : ∀ i, mask i = decide (i < n)) :
    ∀ j, j < n → ∀ v, Real.exp (fwdAlpha init step mask j v)
      = ∑ t : Fin j → Fin T,
          Real.exp (prefScore init step (j + 1) (extFn t v)) := by
  intro j
  induction j with
  | zero =>
      intro _ v
      calc Real.exp (fwdAlpha init step mask 0 v) = Real.exp (init v) := rfl
        _ = Real.exp (prefScore init step 1 (extFn (default : Fin 0 → Fin T) v)) := by
              unfold prefScore extFn
              simp
        _ = ∑ t : Fin 0 → Fin T,
              Real.exp (prefScore init step 1 (extFn t v)) :=
            (Fintype.sum_subsingleton
              (fun t : Fin 0 → Fin T =>
                Real.exp (prefScore init step 1 (extFn t v))) default).symm
  | succ k ih =>
      intro hk v
      have hmk : mask (k + 1) = true := by
        rw [hm]
        simp only [decide_eq_true_eq]
        omega
      rw [fwdAlpha_valid_step init step hmk v, exp_log_sum_exp]
      calc ∑ u, Real.exp (fwdAlpha init step mask k u + step (k + 1) u v)
          = ∑ u, ∑ t : Fin k → Fin T,
              Real.exp (prefScore init step (k + 2) (extFn (Fin.snoc t u) v)) := by
            refine Finset.sum_congr rfl fun u _ => ?_
            rw [Real.exp_add, ih (by omega) u, Finset.sum_mul]
            refine Finset.sum_congr rfl fun t _ => ?_
            rw [← Real.exp_add, prefScore_snoc]
        _ = ∑ p : Fin T × (Fin k → Fin T),
              Real.exp (prefScore init step (k + 2) (extFn (Fin.snoc p.2 p.1) v)) :=
            (Fintype.sum_prod_type fun p : Fin T × (Fin k → Fin T) =>
              Real.exp (prefScore init step (k + 2) (extFn (Fin.snoc p.2 p.1) v))).symm
        _ = ∑ t : Fin (k + 1) → Fin T,
              Real.exp (prefScore init step (k + 2) (extFn t v)) :=
            Fintype.sum_equiv (Fin.snocEquiv fun _ => Fin T) _ _ fun p => rfl

theorem wrapExtend_snoc_agree {T m : ℕ} (hn : 0 < m + 1) (t : Fin m → Fin T)
    (v : Fin T) {i : ℕ} (h : i ≤ m) :
    wrapExtend hn (Fin.snoc t v) i = extFn t v i := by
  unfold wrapExtend extFn
  have hmod : i % (m + 1) = i := Nat.mod_eq_of_lt (by omega)
  rcases lt_or_eq_of_le h with h' | h'
  · rw [dif_pos h']
    have hc : (⟨i % (m + 1), Nat.mod_lt i hn⟩ : Fin (m + 1))
        = Fin.castSucc ⟨i, h'⟩ := by
      apply Fin.ext
      simpa using hmod
    rw [hc, Fin.snoc_castSucc]
  · subst h'
    rw [dif_neg (lt_irrefl i)]
    have hc : (⟨i % (i + 1), Nat.mod_lt i hn⟩ : Fin (i + 1)) = Fin.last i := by
      apply Fin.ext
      exact hmod
    rw [hc, Fin.snoc_last]

/-- The masked forward recursion, finished with any final score vector and a
`log_sum_exp`, computes in exp space the sum over all tag sequences of the
exponentiated generic path score. -/
theorem engine_exp_sum {T : ℕ} [NeZero T] (init : Fin T → ℝ)
    (step : ℕ → Fin T → Fin T → ℝ) (fin : Fin T → ℝ) {mask : ℕ → Bool}
    {n L : ℕ} (hm : ∀ i, mask i = decide (i < n)) (hn : 0 < n) (hL : n ≤ L) :
    Real.exp (log_sum_exp fun v => fwdAlpha init step mask (L - 1) v + fin v)
      = ∑ t : Fin n → Fin T,
          Real.exp (engineSeqScore init step fin n (wrapExtend hn t)) := by
  obtain ⟨m, rfl⟩ : ∃ m, n = m + 1 := ⟨n - 1, by omega⟩
  have hmaskF : ∀ i, m + 1 ≤ i → mask i = false := by
    intro i hi
    rw [hm]
    simp only [decide_eq_false_iff_not]
    omega
  have hstab : fwdAlpha init step mask (L - 1) = fwdAlpha init step mask m := by
    exact fwdAlpha_stable init step hmaskF (Nat.succ_pos m) (L - 1) (by omega)
  rw [exp_log_sum_exp, hstab]
  calc ∑ v, Real.exp (fwdAlpha init step mask m v + fin v)
      = ∑ v, ∑ t : Fin m → Fin T,
          Real.exp (engineSeqScore init step fin (m + 1)
            (wrapExtend hn (Fin.snoc t v))) := by
        refine Finset.sum_congr rfl fun v _ => ?_
        rw [Real.exp_add,
          fwdAlpha_exp_sum init step hm m (Nat.lt_succ_self m) v,
          Finset.sum_mul]
        refine Finset.sum_congr rfl fun t _ => ?_
        rw [← Real.exp_add]
        congr 1
        unfold engineSeqScore
        have hpref : prefScore init step (m + 1) (wrapExtend hn (Fin.snoc t v))
            = prefScore init step (m + 1) (extFn t v) :=
          prefScore_congr init step (m + 1) fun i hi =>
            wrapExtend_snoc_agree hn t v (by omega)
        have hlast : wrapExtend hn (Fin.snoc t v) (m + 1 - 1) = v := by
          rw [show m + 1 - 1 = m from rfl,
            wrapExtend_snoc_agree hn t v le_rfl]
          unfold extFn
          rw [dif_neg (lt_irrefl m)]
        rw [hpref, hlast]
    _ = ∑ p : Fin T × (Fin m → Fin T),
          Real.exp (engineSeqScore init step fin (m + 1)
            (wrapExtend hn (Fin.snoc p.2 p.1))) :=
        (Fintype.sum_prod_type fun p : Fin T × (Fin m → Fin T) =>
          Real.exp (engineSeqScore init step fin (m + 1)
            (wrapExtend hn (Fin.snoc p.2 p.1)))).symm
    _ = ∑ t : Fin (m + 1) → Fin T,
          Real.exp (engineSeqScore init step fin (m + 1) (wrapExtend hn t)) :=
        Fintype.sum_equiv (Fin.snocEquiv fun _ => Fin T) _ _ fun p => rfl

/-- The generic path score instantiated with the CRF's emission and
transition steps is exactly the brute-force sequence score. -/
theorem engineSeqScore_crf {T : ℕ} (p : CRFParams T) (em : ℕ → Fin T → ℝ)
    {n : ℕ} (hn : 0 < n) (t : ℕ → Fin T) :
    engineSeqScore (crfInit p em) (crfStep p em) p.end_transitions n t
      = seqScore p em n t := by
  obtain ⟨m, rfl⟩ : ∃ m, n = m + 1 := ⟨n - 1, by omega⟩
  unfold engineSeqScore prefScore seqScore crfInit crfStep
  simp only [Nat.add_sub_cancel]
  rw [Finset.sum_range_succ', Finset.sum_add_distrib]
  ring

/-- C1: on a batch row whose mask is a non-empty contiguous prefix of length
`n`, `exp(logZ)` of `CRF._denominator_score` is the sum, over all `T^n` tag
sequences, of `exp(start[t_0] + Σ_i emissions_i[t_i]
+ Σ_i transition[t_i, t_{i+1}] + end[t_{n-1}])`. -/
theorem C1_partition_brute_force {T : ℕ} [NeZero T] (p : CRFParams T)
    (em : ℕ → Fin T → ℝ) {mask : ℕ → Bool} {n L : ℕ}
    (hm : ∀ i, mask i = decide (i < n)) (hn : 0 < n) (hL : n ≤ L) :
    Real.exp (denominator_score p em mask L)
      = ∑ t : Fin n → Fin T, Real.exp (seqScore p em n (wrapExtend hn t)) := by
  unfold denominator_score
  rw [engine_exp_sum (crfInit p em) (crfStep p em) p.end_transitions hm hn hL]
  exact Finset.sum_congr rfl fun t _ => by rw [engineSeqScore_crf p em hn]

theorem C1_partition_brute_force_witness :
    (0 : ℕ) < 1 ∧ Real.exp (denominator_score exP exEm exMask1 1)
      = ∑ t : Fin 1 → Fin 1,
          Real.exp (seqScore exP exEm 1 (wrapExtend Nat.one_pos t)) :=
  ⟨Nat.one_pos,
    C1_partition_brute_force exP exEm (fun _ => rfl) Nat.one_pos le_rfl⟩

/-! ### Marginal probabilities: forward-backward telescoping -/

theorem betaRec_stable {T : ℕ} (p : CRFParams T) (em : ℕ → Fin T → ℝ)
    {mask : ℕ → Bool} {n L : ℕ} (hm : ∀ i, mask i = decide (i < n))
    (hL : n ≤ L) :
    ∀ k, k ≤ L - n → betaRec p em mask L k = betaRec p em mask L 0 := by
  intro k hk
  induction k with
  | zero => rfl
  | succ j ih =>
      have hmf : maskF mask (L - 1 - j) = 0 := maskF_of_invalid hm (by omega)
      have hj := ih (by omega)
      funext v
      show log_sum_exp (fun u =>
            betaRec p em mask L j u + p.transitions v u + em (L - 1 - j) u)
          * maskF mask (L - 1 - j)
          + betaRec p em mask L j v * (1 - maskF mask (L - 1 - j))
        = betaRec p em mask L 0 v
      rw [hmf, hj]
      ring

theorem betaRec_valid_step {T : ℕ} (p : CRFParams T) (em : ℕ → Fin T → ℝ)
    {mask : ℕ → Bool} {n L : ℕ} (hm : ∀ i, mask i = decide (i < n))
    (hL : n ≤ L) {j : ℕ} (hj : j + 1 < n) (v : Fin T) :
    betaRec p em mask L (L - 1 - j) v
      = log_sum_exp fun u =>
          betaRec p em mask L (L - 1 - (j + 1)) u + p.transitions v u
            + em (j + 1) u := by
  have h1 : L - 1 - j = (L - 1 - (j + 1)) + 1 := by omega
  have h2 : L - 1 - (L - 1 - (j + 1)) = j + 1 := by omega
  rw [h1]
  show log_sum_exp (fun u =>
        betaRec p em mask L (L - 1 - (j + 1)) u + p.transitions v u
          + em (L - 1 - (L - 1 - (j + 1))) u)
      * maskF mask (L - 1 - (L - 1 - (j + 1)))
      + betaRec p em mask L (L - 1 - (j + 1)) v
        * (1 - maskF mask (L - 1 - (L - 1 - (j + 1)))) = _
  rw [h2, maskF_of_valid hm hj]
  ring

theorem marginal_inner_sum {T : ℕ} [NeZero T] (p : CRFParams T)
    (em : ℕ → Fin T → ℝ) {mask : ℕ → Bool} {n L : ℕ}
    (hm : ∀ i, mask i = decide (i < n)) (hn : 0 < n) (hL : n ≤ L) :
    ∀ j, j < n →
      (∑ v, Real.exp (forwardAlgorithmAlpha p em mask j v
        + betaRec p em mask L (L - 1 - j) v))
        = Real.exp (marginalZ p em mask L) := by
  have hmaskF : ∀ i, n ≤ i → mask i = false := by
    intro i hi
    rw [hm]
    simp only [decide_eq_false_iff_not]
    omega
  have key : ∀ d j, j < n → n - 1 - j = d →
      (∑ v, Real.exp (forwardAlgorithmAlpha p em mask j v
        + betaRec p em mask L (L - 1 - j) v))
        = Real.exp (marginalZ p em mask L) := by
    intro d
    induction d with
    | zero =>
        intro j hj hd
        have hjn : j = n - 1 := by omega
        subst hjn
        have hbl : L - 1 - (n - 1) = L - n := by omega
        have hbeta : betaRec p em mask L (L - n) = betaRec p em mask L 0 :=
          betaRec_stable p em hm hL (L - n) le_rfl
        have halpha : fwdAlpha (crfInit p em) (crfStep p em) mask (L - 1)
            = fwdAlpha (crfInit p em) (crfStep p em) mask (n - 1) :=
          fwdAlpha_stable (crfInit p em) (crfStep p em) hmaskF hn (L - 1)
            (by omega)
        unfold marginalZ
        rw [exp_log_sum_exp]
        unfold forwardAlgorithmAlpha
        rw [hbl, hbeta, halpha]
        rfl
    | succ d ih =>
        intro j hj hd
        have hj1 : j + 1 < n := by omega
        have hbstep : ∀ v, Real.exp (betaRec p em mask L (L - 1 - j) v)
            = ∑ u, Real.exp (betaRec p em mask L (L - 1 - (j + 1)) u)
                * Real.exp (p.transitions v u + em (j + 1) u) := by
          intro v
          rw [betaRec_valid_step p em hm hL hj1 v, exp_log_sum_exp]
          refine Finset.sum_congr rfl fun u _ => ?_
          rw [← Real.exp_add, add_assoc]
        have hastep : ∀ u, Real.exp (forwardAlgorithmAlpha p em mask (j + 1) u)
            = ∑ v, Real.exp (forwardAlgorithmAlpha p em mask j v)
                * Real.exp (p.transitions v u + em (j + 1) u) := by
          intro u
          have hmk : mask (j + 1) = true := by
            rw [hm]
            simp only [decide_eq_true_eq]
            omega
          unfold forwardAlgorithmAlpha
          rw [fwdAlpha_valid_step (crfInit p em) (crfStep p em) hmk u,
            exp_log_sum_exp]
          refine Finset.sum_congr rfl fun v _ => ?_
          rw [← Real.exp_add]
          congr 1
          unfold crfStep
          ring
        calc (∑ v, Real.exp (forwardAlgorithmAlpha p em mask j v
              + betaRec p em mask L (L - 1 - j) v))
            = ∑ v, ∑ u, Real.exp (forwardAlgorithmAlpha p em mask j v)
                * (Real.exp (betaRec p em mask L (L - 1 - (j + 1)) u)
                  * Real.exp (p.transitions v u + em (j + 1) u)) := by
              refine Finset.sum_congr rfl fun v _ => ?_
              rw [Real.exp_add, hbstep v, Finset.mul_sum]
          _ = ∑ u, Real.exp (betaRec p em mask L (L - 1 - (j + 1)) u)
                * ∑ v, Real.exp (forwardAlgorithmAlpha p em mask j v)
                  * Real.exp (p.transitions v u + em (j + 1) u) := by
              rw [Finset.sum_comm]
              refine Finset.sum_congr rfl fun u _ => ?_
              rw [Finset.mul_sum]
              refine Finset.sum_congr rfl fun v _ => ?_
              ring
          _ = ∑ u, Real.exp (forwardAlgorithmAlpha p em mask (j + 1) u
                + betaRec p em mask L (L - 1 - (j + 1)) u) := by
              refine Finset.sum_congr rfl fun u _ => ?_
              rw [Real.exp_add, hastep u]
              ring
          _ = Real.exp (marginalZ p em mask L) := ih (j + 1) hj1 (by omega)
  intro j hj
  exact key (n - 1 - j) j hj rfl

/-- C5: on a batch row whose mask is a non-empty contiguous prefix of length
`n`, the per-tag marginal probabilities of `CRF.marginal_probabilities` sum
to exactly 1 at every valid position. -/
theorem C5_marginals_sum_to_one {T : ℕ} [NeZero T] (p : CRFParams T)
    (em : ℕ → Fin T → ℝ) {mask : ℕ → Bool} {n L : ℕ}
    (hm : ∀ i, mask i = decide (i < n)) (hn : 0 < n) (hL : n ≤ L) :
    ∀ j, j < n → (∑ v, marginal_probabilities p em mask L j v) = 1 := by
  intro j hj
  have hsum := marginal_inner_sum p em hm hn hL j hj
  unfold marginal_probabilities
  have hdiv : ∀ v : Fin T,
      Real.exp (forwardAlgorithmAlpha p em mask j v
        + betaRec p em mask L (L - 1 - j) v - marginalZ p em mask L)
      = Real.exp (forwardAlgorithmAlpha p em mask j v
          + betaRec p em mask L (L - 1 - j) v)
        / Real.exp (marginalZ p em mask L) :=
    fun v => Real.exp_sub _ _
  rw [Finset.sum_congr rfl fun v _ => hdiv v, ← Finset.sum_div, hsum,
    div_self (Real.exp_ne_zero _)]

theorem C5_marginals_sum_to_one_witness :
    (0 : ℕ) < 1 ∧ (∑ v, marginal_probabilities exP exEm exMask1 1 0 v) = 1 :=
  ⟨Nat.one_pos,
    C5_marginals_sum_to_one exP exEm (fun _ => rfl) Nat.one_pos le_rfl 0
      Nat.one_pos⟩

/-! ### The partial (candidate-set) scorer against the gold scorer -/

theorem masked_sum_collapse (f : ℕ → ℝ) {mask : ℕ → Bool} {n L : ℕ}
    (hm : ∀ i, mask i = decide (i < n)) (hL : n ≤ L) :
    (∑ i ∈ Finset.range L, f i * maskF mask i) = ∑ i ∈ Finset.range n, f i := by
  have h1 : (∑ i ∈ Finset.range n, f i * maskF mask i)
      = ∑ i ∈ Finset.range L, f i * maskF mask i := by
    refine Finset.sum_subset (Finset.range_subset.mpr hL) ?_
    intro x _ hnx
    have hx : n ≤ x := by
      rw [Finset.mem_range] at hnx
      omega
    rw [maskF_of_invalid hm hx]
    ring
  rw [← h1]
  exact Finset.sum_congr rfl fun i hi => by
    rw [maskF_of_valid hm (Finset.mem_range.mp hi), mul_one]

theorem masked_sum_shift (f : ℕ → ℝ) {mask : ℕ → Bool} {n M : ℕ}
    (hm : ∀ i, mask i = decide (i < n)) (hM : n - 1 ≤ M) :
    (∑ i ∈ Finset.range M, f i * maskF mask (i + 1))
      = ∑ i ∈ Finset.range (n - 1), f i := by
  have h1 : (∑ i ∈ Finset.range (n - 1), f i * maskF mask (i + 1))
      = ∑ i ∈ Finset.range M, f i * maskF mask (i + 1) := by
    refine Finset.sum_subset (Finset.range_subset.mpr hM) ?_
    intro x _ hnx
    have hx : n - 1 ≤ x := by
      rw [Finset.mem_range] at hnx
      omega
    rw [maskF_of_invalid hm (by omega)]
    ring
  rw [← h1]
  exact Finset.sum_congr rfl fun i hi => by
    have hi' := Finset.mem_range.mp hi
    rw [maskF_of_valid hm (by omega : i + 1 < n), mul_one]

/-- On a contiguous-prefix row, the gold scorer's value is exactly the
brute-force sequence score of the gold path over the valid length. -/
theorem numerator_score_eq_seqScore {T : ℕ} (p : CRFParams T)
    (em : ℕ → Fin T → ℝ) (tags : ℕ → Fin T) {mask : ℕ → Bool} {n L : ℕ}
    (hm : ∀ i, mask i = decide (i < n)) (hn : 0 < n) (hL : n ≤ L) :
    numerator_score p em tags mask L = some (seqScore p em n tags) := by
  rw [numerator_score_formula p em tags hm hn hL]
  congr 1
  unfold seqScore
  rw [masked_sum_collapse (fun i => em i (tags i)) hm hL,
    masked_sum_shift (fun i => p.transitions (tags i) (tags (i + 1))) hm
      (by omega)]

theorem pyIndex_contiguous {n L : ℕ} {mask : ℕ → Bool}
    (hm : ∀ i, mask i = decide (i < n)) (hn : 0 < n) (hL : n ≤ L) :
    pyIndex (lastIndex mask L) L = some (n - 1) := by
  rw [lastIndex_of_contiguous hm hL]
  unfold pyIndex
  rw [if_pos ⟨by omega, by omega⟩]
  congr 1
  rw [Int.emod_eq_of_lt (by omega) (by omega)]
  omega

/-- The partial scorer's returned value on a contiguous-prefix row: the
forward recursion over the restricted score matrices, finished with the
restricted end scores gathered at the last valid position. -/
theorem PartialCRF_numerator_val {T : ℕ} (p : CRFParams T)
    (em : ℕ → Fin T → ℝ) (allowed : ℕ → Fin T → Bool) {mask : ℕ → Bool}
    {n L : ℕ} (hm : ∀ i, mask i = decide (i < n)) (hn : 0 < n) (hL : n ≤ L) :
    (PartialCRF_numerator_score p em mask allowed L).1
      = some (log_sum_exp fun v =>
          fwdAlpha (pcrfInit p em allowed) (pcrfStep p em allowed) mask
              (L - 1) v
            + restrictedEnd p allowed (n - 1) v) := by
  unfold PartialCRF_numerator_score
  rw [pyIndex_contiguous hm hn hL]

theorem lt_sum_of_pos {α : Type} [Fintype α] {F : α → ℝ}
    (hpos : ∀ x, 0 < F x) {a b : α} (hab : b ≠ a) : F a < ∑ x, F x :=
  Finset.single_lt_sum hab (Finset.mem_univ a) (Finset.mem_univ b) (hpos b)
    fun k _ _ => le_of_lt (hpos k)

theorem engineSeqScore_congr {T : ℕ} (init : Fin T → ℝ)
    (step : ℕ → Fin T → Fin T → ℝ) (fin : Fin T → ℝ) (n : ℕ)
    (s s' : ℕ → Fin T) (h : ∀ i, i ≤ n - 1 → s i = s' i) :
    engineSeqScore init step fin n s = engineSeqScore init step fin n s' := by
  unfold engineSeqScore
  rw [prefScore_congr init step n h, h (n - 1) le_rfl]

/-- Along the gold path with singleton candidate sets, every restricted
entry keeps its unrestricted value (provided no transition or end parameter
on the path is exactly zero), so the generic path score of the restricted
engine equals the brute-force gold score. -/
theorem pcrf_gold_path_score {T : ℕ} (p : CRFParams T) (em : ℕ → Fin T → ℝ)
    (tags : ℕ → Fin T) {n : ℕ} (hn : 0 < n)
    (htrans : ∀ i, i + 1 < n → p.transitions (tags i) (tags (i + 1)) ≠ 0)
    (hend : p.end_transitions (tags (n - 1)) ≠ 0) :
    engineSeqScore (pcrfInit p em (create_possible_tag_masks tags))
        (pcrfStep p em (create_possible_tag_masks tags))
        (restrictedEnd p (create_possible_tag_masks tags) (n - 1)) n tags
      = seqScore p em n tags := by
  obtain ⟨m, rfl⟩ : ∃ m, n = m + 1 := ⟨n - 1, by omega⟩
  simp only [Nat.add_sub_cancel] at htrans hend ⊢
  unfold engineSeqScore prefScore seqScore
  simp only [Nat.add_sub_cancel]
  have hinit : pcrfInit p em (create_possible_tag_masks tags) (tags 0)
      = p.start_transitions (tags 0) + em 0 (tags 0) := by
    simp [pcrfInit, create_possible_tag_masks]
  have hstep : ∀ i ∈ Finset.range m,
      pcrfStep p em (create_possible_tag_masks tags) (i + 1) (tags i)
          (tags (i + 1))
        = em (i + 1) (tags (i + 1)) + p.transitions (tags i) (tags (i + 1)) := by
    intro i hi
    rw [Finset.mem_range] at hi
    have ht := htrans i (by omega)
    simp [pcrfStep, restrictedEmission, restrictedTransition,
      create_possible_tag_masks, indF, ht]
  have hendv : restrictedEnd p (create_possible_tag_masks tags) m (tags m)
      = p.end_transitions (tags m) := by
    simp [restrictedEnd, create_possible_tag_masks, indF, hend]
  rw [hinit, Finset.sum_congr rfl hstep, hendv, Finset.sum_add_distrib,
    Finset.sum_range_succ']
  ring

/-- With singleton candidate sets built from the gold tags (as
`PartialCRF.forward` builds them), a non-empty contiguous prefix, at least
two tags, and no transition or end parameter along the gold path exactly
zero, the partial gold scorer's output is strictly greater than the gold
scorer's output: the sentinel-masked paths keep strictly positive
probability mass. -/
theorem partial_scorer_exceeds_gold {T : ℕ} [NeZero T] (hT : 1 < T)
    (p : CRFParams T) (em : ℕ → Fin T → ℝ) (tags : ℕ → Fin T)
    {mask : ℕ → Bool} {n L : ℕ} (hm : ∀ i, mask i = decide (i < n))
    (hn : 0 < n) (hL : n ≤ L)
    (htrans : ∀ i, i + 1 < n → p.transitions (tags i) (tags (i + 1)) ≠ 0)
    (hend : p.end_transitions (tags (n - 1)) ≠ 0) :
    ∃ g s, numerator_score p em tags mask L = some g
      ∧ (PartialCRF_numerator_score p em mask
          (create_possible_tag_masks tags) L).1 = some s
      ∧ g < s := by
  refine ⟨seqScore p em n tags,
    log_sum_exp fun v =>
      fwdAlpha (pcrfInit p em (create_possible_tag_masks tags))
          (pcrfStep p em (create_possible_tag_masks tags)) mask (L - 1) v
        + restrictedEnd p (create_possible_tag_masks tags) (n - 1) v,
    numerator_score_eq_seqScore p em tags hm hn hL,
    PartialCRF_numerator_val p em (create_possible_tag_masks tags) hm hn hL,
    ?_⟩
  have hexp := engine_exp_sum (pcrfInit p em (create_possible_tag_masks tags))
    (pcrfStep p em (create_possible_tag_masks tags))
    (restrictedEnd p (create_possible_tag_masks tags) (n - 1)) hm hn hL
  have hgold : engineSeqScore (pcrfInit p em (create_possible_tag_masks tags))
      (pcrfStep p em (create_possible_tag_masks tags))
      (restrictedEnd p (create_possible_tag_masks tags) (n - 1)) n
      (wrapExtend hn fun i : Fin n => tags i) = seqScore p em n tags := by
    rw [engineSeqScore_congr _ _ _ n _ tags fun i hi => by
      unfold wrapExtend
      have : i % n = i := Nat.mod_eq_of_lt (by omega)
      simp [this]]
    exact pcrf_gold_path_score p em tags hn htrans hend
  have hnontriv : Nontrivial (Fin T) := Fin.nontrivial_iff_two_le.mpr hT
  obtain ⟨w, hw⟩ := exists_ne (tags 0)
  have hne : Function.update (fun i : Fin n => tags i) ⟨0, hn⟩ w
      ≠ fun i : Fin n => tags i := by
    intro hcontra
    have h0 := congrFun hcontra ⟨0, hn⟩
    rw [Function.update_same] at h0
    exact hw h0
  have hlt : Real.exp (seqScore p em n tags)
      < Real.exp (log_sum_exp fun v =>
          fwdAlpha (pcrfInit p em (create_possible_tag_masks tags))
              (pcrfStep p em (create_possible_tag_masks tags)) mask (L - 1) v
            + restrictedEnd p (create_possible_tag_masks tags) (n - 1) v) := by
    rw [hexp, ← hgold]
    exact @lt_sum_of_pos (Fin n → Fin T) _
      (fun t => Real.exp (engineSeqScore
        (pcrfInit p em (create_possible_tag_masks tags))
        (pcrfStep p em (create_possible_tag_masks tags))
        (restrictedEnd p (create_possible_tag_masks tags) (n - 1)) n
        (wrapExtend hn t)))
      (fun t => Real.exp_pos _) _ _ hne
  exact Real.exp_lt_exp.mp hlt

/-- C3 amended, as a claim-level statement: see
`partial_scorer_exceeds_gold` for the content. -/
theorem C3_singleton_reduction_amended {T : ℕ} [NeZero T] (hT : 1 < T)
    (p : CRFParams T) (em : ℕ → Fin T → ℝ) (tags : ℕ → Fin T)
    {mask : ℕ → Bool} {n L : ℕ} (hm : ∀ i, mask i = decide (i < n))
    (hn : 0 < n) (hL : n ≤ L)
    (htrans : ∀ i, i + 1 < n → p.transitions (tags i) (tags (i + 1)) ≠ 0)
    (hend : p.end_transitions (tags (n - 1)) ≠ 0) :
    ∃ g s, numerator_score p em tags mask L = some g
      ∧ (PartialCRF_numerator_score p em mask
          (create_possible_tag_masks tags) L).1 = some s
      ∧ g < s :=
  partial_scorer_exceeds_gold hT p em tags hm hn hL htrans hend

theorem C3_singleton_reduction_amended_witness :
    (1 : ℕ) < 2 ∧
      ∃ g s, numerator_score c3P c3Em c3Tags exMask1 1 = some g
        ∧ (PartialCRF_numerator_score c3P c3Em exMask1
            (create_possible_tag_masks c3Tags) 1).1 = some s
        ∧ g < s :=
  ⟨Nat.one_lt_two,
    C3_singleton_reduction_amended Nat.one_lt_two c3P c3Em c3Tags
      (fun _ => rfl) Nat.one_pos le_rfl (fun i hi => absurd hi (by omega))
      (by simp [c3P])⟩

/-- C3 counterexample: two tags, one valid position, all parameters zero
except `end ≡ 1`, gold tag 0, singleton candidate sets.  The gold scorer
returns `1`; the partial scorer returns
`log(exp 1 + exp(2 · IMPOSSIBLE_SCORE)) > 1`: the two outputs differ in
exact real arithmetic, refuting the claimed equality. -/
theorem C3_singleton_reduction_cex :
    (PartialCRF_numerator_score c3P c3Em exMask1
        (create_possible_tag_masks c3Tags) 1).1
      ≠ numerator_score c3P c3Em c3Tags exMask1 1 := by
  obtain ⟨g, s, hg, hs, hgs⟩ :=
    partial_scorer_exceeds_gold Nat.one_lt_two c3P c3Em c3Tags
      ((fun _ => rfl) : ∀ i, exMask1 i = decide (i < 1)) Nat.one_pos le_rfl
      (fun i hi => absurd hi (by omega)) (by simp [c3P])
  rw [hg, hs]
  intro hcontra
  exact absurd (Option.some.inj hcontra) (ne_of_gt hgs)

/-! ### Viterbi decoding: optimality and backpointer reconstruction -/

theorem le_maxF {T : ℕ} [NeZero T] (f : Fin T → ℝ) (u : Fin T) :
    f u ≤ maxF f :=
  Finset.le_sup' f (Finset.mem_univ u)

theorem argmaxF_spec {T : ℕ} [NeZero T] (f : Fin T → ℝ) :
    f (argmaxF f) = maxF f := by
  have hmem : argmaxF f ∈ Finset.univ.filter fun u => maxF f ≤ f u := by
    unfold argmaxF
    exact Finset.min'_mem _ _
  rw [Finset.mem_filter] at hmem
  exact le_antisymm (le_maxF f _) hmem.2

theorem vitAlpha_valid_step {T : ℕ} [NeZero T] (p : CRFParams T)
    (em : ℕ → Fin T → ℝ) {mask : ℕ → Bool} {i : ℕ} (h : mask (i + 1) = true)
    (v : Fin T) :
    vitAlpha p em mask (i + 1) v
      = maxF fun u => vitAlpha p em mask i u + p.transitions u v
          + em (i + 1) v := by
  simp [vitAlpha, h]

theorem vitAlpha_invalid_step {T : ℕ} [NeZero T] (p : CRFParams T)
    (em : ℕ → Fin T → ℝ) {mask : ℕ → Bool} {i : ℕ}
    (h : mask (i + 1) = false) :
    vitAlpha p em mask (i + 1) = vitAlpha p em mask i := by
  funext v
  simp [vitAlpha, h]

theorem vitAlpha_stable {T : ℕ} [NeZero T] (p : CRFParams T)
    (em : ℕ → Fin T → ℝ) {mask : ℕ → Bool} {n : ℕ}
    (hmask : ∀ i, n ≤ i → mask i = false) (hn : 0 < n) :
    ∀ j, n - 1 ≤ j → vitAlpha p em mask j = vitAlpha p em mask (n - 1) := by
  intro j hj
  induction j with
  | zero => rw [Nat.le_zero.mp hj]
  | succ k ih =>
      rcases Nat.lt_or_ge k (n - 1) with hk | hk
      · have : n - 1 = k + 1 := by omega
        rw [this]
      · have hmk : mask (k + 1) = false := hmask _ (by omega)
        rw [vitAlpha_invalid_step p em hmk, ih hk]

theorem prefScore_succ {T : ℕ} (init : Fin T → ℝ)
    (step : ℕ → Fin T → Fin T → ℝ) (j : ℕ) (t : ℕ → Fin T) :
    prefScore init step (j + 2) t
      = prefScore init step (j + 1) t + step (j + 1) (t j) (t (j + 1)) := by
  unfold prefScore
  simp only [show j + 2 - 1 = j + 1 from rfl, show j + 1 - 1 = j from rfl]
  rw [Finset.sum_range_succ]
  ring

theorem prefScore_le_vitAlpha {T : ℕ} [NeZero T] (p : CRFParams T)
    (em : ℕ → Fin T → ℝ) {mask : ℕ → Bool} {n : ℕ}
    (hm : ∀ i, mask i = decide (i < n)) :
    ∀ j, j < n → ∀ t : ℕ → Fin T,
      prefScore (crfInit p em) (crfStep p em) (j + 1) t
        ≤ vitAlpha p em mask j (t j) := by
  intro j
  induction j with
  | zero =>
      intro _ t
      apply le_of_eq
      simp [prefScore, crfInit, vitAlpha]
  | succ k ih =>
      intro hk t
      have hmk : mask (k + 1) = true := by
        rw [hm]
        simp only [decide_eq_true_eq]
        omega
      rw [prefScore_succ, vitAlpha_valid_step p em hmk (t (k + 1))]
      have h1 : prefScore (crfInit p em) (crfStep p em) (k + 1) t
            + crfStep p em (k + 1) (t k) (t (k + 1))
          ≤ vitAlpha p em mask k (t k)
            + crfStep p em (k + 1) (t k) (t (k + 1)) :=
        add_le_add_right (ih (by omega) t) _
      refine le_trans h1 ?_
      have h2 : vitAlpha p em mask k (t k)
            + crfStep p em (k + 1) (t k) (t (k + 1))
          = vitAlpha p em mask k (t k) + p.transitions (t k) (t (k + 1))
            + em (k + 1) (t (k + 1)) := by
        unfold crfStep
        ring
      rw [h2]
      exact le_maxF
        (fun u => vitAlpha p em mask k u + p.transitions u (t (k + 1))
          + em (k + 1) (t (k + 1))) (t k)

theorem seqScore_le_viterbi_max {T : ℕ} [NeZero T] (p : CRFParams T)
    (em : ℕ → Fin T → ℝ) {mask : ℕ → Bool} {n L : ℕ}
    (hm : ∀ i, mask i = decide (i < n)) (hn : 0 < n) (hL : n ≤ L)
    (t : ℕ → Fin T) :
    seqScore p em n t
      ≤ maxF fun v => vitAlpha p em mask (L - 1) v + p.end_transitions v := by
  have hmaskF : ∀ i, n ≤ i → mask i = false := by
    intro i hi
    rw [hm]
    simp only [decide_eq_false_iff_not]
    omega
  have hstab : vitAlpha p em mask (L - 1) = vitAlpha p em mask (n - 1) :=
    vitAlpha_stable p em hmaskF hn (L - 1) (by omega)
  rw [hstab, ← engineSeqScore_crf p em hn t]
  unfold engineSeqScore
  have hpref : prefScore (crfInit p em) (crfStep p em) n t
      ≤ vitAlpha p em mask (n - 1) (t (n - 1)) := by
    have := prefScore_le_vitAlpha p em hm (n - 1) (by omega) t
    rw [show n - 1 + 1 = n by omega] at this
    exact this
  calc prefScore (crfInit p em) (crfStep p em) n t
        + p.end_transitions (t (n - 1))
      ≤ vitAlpha p em mask (n - 1) (t (n - 1))
        + p.end_transitions (t (n - 1)) := add_le_add_right hpref _
    _ ≤ maxF fun v => vitAlpha p em mask (n - 1) v + p.end_transitions v :=
        le_maxF (fun v => vitAlpha p em mask (n - 1) v + p.end_transitions v)
          (t (n - 1))

theorem viterbi_backtrack_spec {T : ℕ} [NeZero T] (p : CRFParams T)
    (em : ℕ → Fin T → ℝ) {mask : ℕ → Bool} {n L : ℕ}
    (hm : ∀ i, mask i = decide (i < n)) (hL : n ≤ L) :
    ∀ k, k ≤ n - 1 → ∀ v : Fin T,
      (backtrackRev ((viterbiHistory p em mask L).take k).reverse v).reverse.length
          = k + 1
        ∧ prefScore (crfInit p em) (crfStep p em) (k + 1)
            (fun j => (backtrackRev
              ((viterbiHistory p em mask L).take k).reverse v).reverse.getD j
                tag0)
          = vitAlpha p em mask k v
        ∧ (backtrackRev
            ((viterbiHistory p em mask L).take k).reverse v).reverse.getD k
              tag0 = v := by
  intro k
  induction k with
  | zero =>
      intro _ v
      refine ⟨rfl, ?_, rfl⟩
      simp [prefScore, crfInit, vitAlpha, backtrackRev]
  | succ k ih =>
      intro hk v
      have hkL : k + 1 ≤ L - 1 := by omega
      have htake : (viterbiHistory p em mask L).take (k + 1)
          = (viterbiHistory p em mask L).take k
            ++ [fun w : Fin T => argmaxF fun u =>
                vitAlpha p em mask k u + p.transitions u w + em (k + 1) w] := by
        unfold viterbiHistory
        rw [← List.map_take, ← List.map_take, List.take_range, List.take_range,
          show min (k + 1) (L - 1) = k + 1 by omega,
          show min k (L - 1) = k by omega, List.range_succ, List.map_append]
        rfl
      obtain ⟨ihlen, ihpref, ihlast⟩ := ih (by omega)
        (argmaxF fun u =>
          vitAlpha p em mask k u + p.transitions u v + em (k + 1) v)
      have hlist : (backtrackRev
            ((viterbiHistory p em mask L).take (k + 1)).reverse v).reverse
          = (backtrackRev ((viterbiHistory p em mask L).take k).reverse
              (argmaxF fun u =>
                vitAlpha p em mask k u + p.transitions u v
                  + em (k + 1) v)).reverse ++ [v] := by
        rw [htake, List.reverse_append]
        simp only [List.reverse_cons, List.reverse_nil, List.nil_append,
          List.singleton_append]
        rw [show backtrackRev ((fun w : Fin T => argmaxF fun u =>
              vitAlpha p em mask k u + p.transitions u w + em (k + 1) w)
                :: ((viterbiHistory p em mask L).take k).reverse) v
            = v :: backtrackRev ((viterbiHistory p em mask L).take k).reverse
                (argmaxF fun u =>
                  vitAlpha p em mask k u + p.transitions u v + em (k + 1) v)
          from rfl]
        rw [List.reverse_cons]
      have hgd : ∀ j, j ≤ k →
          ((backtrackRev ((viterbiHistory p em mask L).take k).reverse
              (argmaxF fun u =>
                vitAlpha p em mask k u + p.transitions u v
                  + em (k + 1) v)).reverse ++ [v]).getD j tag0
            = (backtrackRev ((viterbiHistory p em mask L).take k).reverse
                (argmaxF fun u =>
                  vitAlpha p em mask k u + p.transitions u v
                    + em (k + 1) v)).reverse.getD j tag0 := by
        intro j hj
        exact List.getD_append _ _ _ _ (by rw [ihlen]; omega)
      have hgdk1 : ((backtrackRev ((viterbiHistory p em mask L).take k).reverse
            (argmaxF fun u =>
              vitAlpha p em mask k u + p.transitions u v
                + em (k + 1) v)).reverse ++ [v]).getD (k + 1) tag0 = v := by
        rw [List.getD_append_right _ _ _ _ (by rw [ihlen]), ihlen]
        simp
      refine ⟨?_, ?_, ?_⟩
      · rw [hlist, List.length_append, ihlen]
        rfl
      · have hmk : mask (k + 1) = true := by
          rw [hm]
          simp only [decide_eq_true_eq]
          omega
        rw [hlist, prefScore_succ]
        have hpc : prefScore (crfInit p em) (crfStep p em) (k + 1)
              (fun j => ((backtrackRev
                ((viterbiHistory p em mask L).take k).reverse
                  (argmaxF fun u =>
                    vitAlpha p em mask k u + p.transitions u v
                      + em (k + 1) v)).reverse ++ [v]).getD j tag0)
            = prefScore (crfInit p em) (crfStep p em) (k + 1)
                (fun j => (backtrackRev
                  ((viterbiHistory p em mask L).take k).reverse
                    (argmaxF fun u =>
                      vitAlpha p em mask k u + p.transitions u v
                        + em (k + 1) v)).reverse.getD j tag0) :=
          prefScore_congr _ _ _ fun i hi => hgd i (by omega)
        rw [hpc, ihpref, hgd k le_rfl, ihlast, hgdk1]
        rw [vitAlpha_valid_step p em hmk v,
          ← argmaxF_spec fun u =>
            vitAlpha p em mask k u + p.transitions u v + em (k + 1) v]
        unfold crfStep
        ring
      · rw [hlist]
        exact hgdk1

theorem viterbi_decode_spec {T : ℕ} [NeZero T] (p : CRFParams T)
    (em : ℕ → Fin T → ℝ) {mask : ℕ → Bool} {n L : ℕ}
    (hm : ∀ i, mask i = decide (i < n)) (hn : 0 < n) (hL : n ≤ L) :
    (viterbi_decode p em mask L).length = n
      ∧ seqScore p em n
          (fun j => (viterbi_decode p em mask L).getD j tag0)
        = maxF fun v =>
            vitAlpha p em mask (L - 1) v + p.end_transitions v := by
  have hdecode : viterbi_decode p em mask L
      = (backtrackRev ((viterbiHistory p em mask L).take (n - 1)).reverse
          (argmaxF fun v =>
            vitAlpha p em mask (L - 1) v + p.end_transitions v)).reverse := by
    unfold viterbi_decode
    rw [lastIndex_of_contiguous hm hL]
    unfold pySlice
    rw [if_pos (by omega : (0 : ℤ) ≤ (n : ℤ) - 1),
      show ((n : ℤ) - 1).toNat = n - 1 by omega]
  obtain ⟨hlen, hpref, hlast⟩ := viterbi_backtrack_spec p em hm hL (n - 1)
    le_rfl (argmaxF fun v =>
      vitAlpha p em mask (L - 1) v + p.end_transitions v)
  rw [show n - 1 + 1 = n by omega] at hlen hpref
  have hmaskF : ∀ i, n ≤ i → mask i = false := by
    intro i hi
    rw [hm]
    simp only [decide_eq_false_iff_not]
    omega
  have hstab : vitAlpha p em mask (L - 1) = vitAlpha p em mask (n - 1) :=
    vitAlpha_stable p em hmaskF hn (L - 1) (by omega)
  constructor
  · rw [hdecode, hlen]
  · rw [← engineSeqScore_crf p em hn]
    unfold engineSeqScore
    simp only []
    rw [hdecode, hpref, hlast, hstab]
    exact argmaxF_spec fun v =>
      vitAlpha p em mask (n - 1) v + p.end_transitions v

/-- C2: on a batch row whose mask is a non-empty contiguous prefix of length
`n`, `CRF.viterbi_decode` returns a tag sequence of length exactly `n` whose
path score equals the internally reconstructed score (the max over the final
score vector plus end transitions), which in turn bounds the path score of
every length-`n` tag sequence: the decoded sequence attains the maximum. -/
theorem C2_viterbi_optimality {T : ℕ} [NeZero T] (p : CRFParams T)
    (em : ℕ → Fin T → ℝ) {mask : ℕ → Bool} {n L : ℕ}
    (hm : ∀ i, mask i = decide (i < n)) (hn : 0 < n) (hL : n ≤ L) :
    (viterbi_decode p em mask L).length = n
      ∧ seqScore p em n
          (fun j => (viterbi_decode p em mask L).getD j tag0)
        = maxF (fun v =>
            vitAlpha p em mask (L - 1) v + p.end_transitions v)
      ∧ ∀ t : ℕ → Fin T, seqScore p em n t
          ≤ maxF fun v =>
              vitAlpha p em mask (L - 1) v + p.end_transitions v :=
  ⟨(viterbi_decode_spec p em hm hn hL).1,
    (viterbi_decode_spec p em hm hn hL).2,
    fun t => seqScore_le_viterbi_max p em hm hn hL t⟩

theorem C2_viterbi_optimality_witness :
    (0 : ℕ) < 1 ∧
      ((viterbi_decode exP exEm exMask1 1).length = 1
        ∧ seqScore exP exEm 1
            (fun j => (viterbi_decode exP exEm exMask1 1).getD j tag0)
          = maxF (fun v =>
              vitAlpha exP exEm exMask1 (1 - 1) v + exP.end_transitions v)
        ∧ ∀ t : ℕ → Fin 1, seqScore exP exEm 1 t
            ≤ maxF fun v =>
                vitAlpha exP exEm exMask1 (1 - 1) v
                  + exP.end_transitions v) :=
  ⟨Nat.one_pos,
    C2_viterbi_optimality exP exEm (fun _ => rfl) Nat.one_pos le_rfl⟩

/-! ### Padding invariance -/

theorem maskF_congr {mask mask' : ℕ → Bool} {i : ℕ} (h : mask i = mask' i) :
    maskF mask i = maskF mask' i := by
  unfold maskF
  rw [h]

theorem fwdAlpha_congr {T : ℕ} {init init' : Fin T → ℝ}
    {step step' : ℕ → Fin T → Fin T → ℝ} {mask mask' : ℕ → Bool}
    (hinit : init = init') :
    ∀ j, (∀ i, 1 ≤ i → i ≤ j → step i = step' i) →
      (∀ i, 1 ≤ i → i ≤ j → mask i = mask' i) →
      fwdAlpha init step mask j = fwdAlpha init' step' mask' j := by
  intro j
  induction j with
  | zero =>
      intro _ _
      exact hinit
  | succ k ih =>
      intro hstep hmask
      have hprev := ih (fun i h1 h2 => hstep i h1 (by omega))
        (fun i h1 h2 => hmask i h1 (by omega))
      funext v
      show log_sum_exp (fun u =>
            fwdAlpha init step mask k u + step (k + 1) u v)
          * maskF mask (k + 1)
          + fwdAlpha init step mask k v * (1 - maskF mask (k + 1))
        = log_sum_exp (fun u =>
            fwdAlpha init' step' mask' k u + step' (k + 1) u v)
          * maskF mask' (k + 1)
          + fwdAlpha init' step' mask' k v * (1 - maskF mask' (k + 1))
      rw [hprev, hstep (k + 1) (by omega) le_rfl,
        maskF_congr (hmask (k + 1) (by omega) le_rfl)]

theorem vitAlpha_congr {T : ℕ} [NeZero T] (p : CRFParams T)
    {em em' : ℕ → Fin T → ℝ} {mask mask' : ℕ → Bool} :
    ∀ j, (∀ i, i ≤ j → em i = em' i) →
      (∀ i, 1 ≤ i → i ≤ j → mask i = mask' i) →
      vitAlpha p em mask j = vitAlpha p em' mask' j := by
  intro j
  induction j with
  | zero =>
      intro hem _
      funext v
      show p.start_transitions v + em 0 v = p.start_transitions v + em' 0 v
      rw [hem 0 le_rfl]
  | succ k ih =>
      intro hem hmask
      have hprev := ih (fun i h2 => hem i (by omega))
        (fun i h1 h2 => hmask i h1 (by omega))
      funext v
      show (if mask (k + 1) then
            maxF fun u =>
              vitAlpha p em mask k u + p.transitions u v + em (k + 1) v
          else vitAlpha p em mask k v)
        = (if mask' (k + 1) then
            maxF fun u =>
              vitAlpha p em' mask' k u + p.transitions u v + em' (k + 1) v
          else vitAlpha p em' mask' k v)
      rw [hprev, hem (k + 1) le_rfl, hmask (k + 1) (by omega) le_rfl]

theorem betaRec_pad_agree {T : ℕ} (p : CRFParams T)
    {em em' : ℕ → Fin T → ℝ} {mask mask' : ℕ → Bool} {n L k : ℕ}
    (hm : ∀ i, mask i = decide (i < n))
    (hm' : ∀ i, mask' i = decide (i < n))
    (hem : ∀ i, i < L → em' i = em i) (hn : 0 < n) (hL : n ≤ L) :
    ∀ d j, j < n → n - 1 - j = d →
      betaRec p em' mask' (L + k) (L + k - 1 - j)
        = betaRec p em mask L (L - 1 - j) := by
  intro d
  induction d with
  | zero =>
      intro j hj hd
      have hjn : j = n - 1 := by omega
      subst hjn
      have h1 : L + k - 1 - (n - 1) = L + k - n := by omega
      have h2 : L - 1 - (n - 1) = L - n := by omega
      rw [h1, h2,
        betaRec_stable p em' hm' (by omega) (L + k - n) (by omega),
        betaRec_stable p em hm hL (L - n) le_rfl]
      rfl
  | succ d ih =>
      intro j hj hd
      have hj1 : j + 1 < n := by omega
      have ihf := ih (j + 1) hj1 (by omega)
      funext v
      rw [betaRec_valid_step p em' hm' (by omega : n ≤ L + k) hj1 v,
        betaRec_valid_step p em hm hL hj1 v, ihf, hem (j + 1) (by omega)]

/-- C7: appending `k` extra timesteps with false mask bits and arbitrary
emission values changes neither the per-row `logZ`, nor the marginals at
the originally valid positions, nor the decoded tag sequence. -/
theorem C7_padding_invariance {T : ℕ} [NeZero T] (p : CRFParams T)
    (em em' : ℕ → Fin T → ℝ) {mask mask' : ℕ → Bool} {n L k : ℕ}
    (hm : ∀ i, mask i = decide (i < n)) (hn : 0 < n) (hL : n ≤ L)
    (hem : ∀ i, i < L → em' i = em i)
    (hmaskeq : ∀ i, i < L → mask' i = mask i)
    (hmaskpad : ∀ i, L ≤ i → mask' i = false) :
    denominator_score p em' mask' (L + k) = denominator_score p em mask L
      ∧ (∀ j, j < n → ∀ v,
          marginal_probabilities p em' mask' (L + k) j v
            = marginal_probabilities p em mask L j v)
      ∧ viterbi_decode p em' mask' (L + k) = viterbi_decode p em mask L := by
  have hm' : ∀ i, mask' i = decide (i < n) := by
    intro i
    rcases Nat.lt_or_ge i L with h | h
    · rw [hmaskeq i h, hm i]
    · rw [hmaskpad i h]
      symm
      simp only [decide_eq_false_iff_not]
      omega
  have hinit : crfInit p em' = crfInit p em := by
    funext v
    unfold crfInit
    rw [hem 0 (by omega)]
  have hstep : ∀ i, 1 ≤ i → i ≤ n - 1 → crfStep p em' i = crfStep p em i := by
    intro i _ hi
    funext u v
    unfold crfStep
    rw [hem i (by omega)]
  have hmaskc : ∀ i, 1 ≤ i → i ≤ n - 1 → mask' i = mask i :=
    fun i _ hi => hmaskeq i (by omega)
  have halpha : ∀ j, j ≤ n - 1 →
      fwdAlpha (crfInit p em') (crfStep p em') mask' j
        = fwdAlpha (crfInit p em) (crfStep p em) mask j := by
    intro j hj
    exact fwdAlpha_congr hinit j (fun i h1 h2 => hstep i h1 (by omega))
      (fun i h1 h2 => hmaskc i h1 (by omega))
  have hmaskFn : ∀ i, n ≤ i → mask i = false := by
    intro i hi
    rw [hm]
    simp only [decide_eq_false_iff_not]
    omega
  have hmaskFn' : ∀ i, n ≤ i → mask' i = false := by
    intro i hi
    rw [hm']
    simp only [decide_eq_false_iff_not]
    omega
  have hstabA : fwdAlpha (crfInit p em) (crfStep p em) mask (L - 1)
      = fwdAlpha (crfInit p em) (crfStep p em) mask (n - 1) :=
    fwdAlpha_stable _ _ hmaskFn hn _ (by omega)
  have hstabA' : fwdAlpha (crfInit p em') (crfStep p em') mask' (L + k - 1)
      = fwdAlpha (crfInit p em') (crfStep p em') mask' (n - 1) :=
    fwdAlpha_stable _ _ hmaskFn' hn _ (by omega)
  have hz : denominator_score p em' mask' (L + k)
      = denominator_score p em mask L := by
    unfold denominator_score
    rw [hstabA', hstabA, halpha (n - 1) le_rfl]
  refine ⟨hz, ?_, ?_⟩
  · intro j hj v
    unfold marginal_probabilities
    have hZ : marginalZ p em' mask' (L + k) = marginalZ p em mask L := by
      unfold marginalZ forwardAlgorithmAlpha
      rw [hstabA', hstabA, halpha (n - 1) le_rfl]
    have hA : forwardAlgorithmAlpha p em' mask' j
        = forwardAlgorithmAlpha p em mask j := by
      unfold forwardAlgorithmAlpha
      exact halpha j (by omega)
    have hB : betaRec p em' mask' (L + k) (L + k - 1 - j)
        = betaRec p em mask L (L - 1 - j) :=
      betaRec_pad_agree p hm hm' hem hn hL (n - 1 - j) j hj rfl
    rw [hA, hB, hZ]
  · have hvit : ∀ j, j ≤ n - 1 →
        vitAlpha p em' mask' j = vitAlpha p em mask j := by
      intro j hj
      exact vitAlpha_congr p j (fun i hi => hem i (by omega))
        (fun i h1 h2 => hmaskc i h1 (by omega))
    have hstabV : vitAlpha p em mask (L - 1) = vitAlpha p em mask (n - 1) :=
      vitAlpha_stable p em hmaskFn hn _ (by omega)
    have hstabV' : vitAlpha p em' mask' (L + k - 1)
        = vitAlpha p em' mask' (n - 1) :=
      vitAlpha_stable p em' hmaskFn' hn _ (by omega)
    unfold viterbi_decode
    rw [lastIndex_of_contiguous hm' (by omega : n ≤ L + k),
      lastIndex_of_contiguous hm hL]
    have hslice : ∀ l : List (Fin T → Fin T),
        pySlice ((n : ℤ) - 1) l = l.take (n - 1) := by
      intro l
      unfold pySlice
      rw [if_pos (by omega : (0 : ℤ) ≤ (n : ℤ) - 1),
        show ((n : ℤ) - 1).toNat = n - 1 by omega]
    rw [hslice, hslice]
    have hhist : (viterbiHistory p em' mask' (L + k)).take (n - 1)
        = (viterbiHistory p em mask L).take (n - 1) := by
      unfold viterbiHistory
      rw [← List.map_take, ← List.map_take, List.take_range, List.take_range,
        show min (n - 1) (L + k - 1) = n - 1 by omega,
        show min (n - 1) (L - 1) = n - 1 by omega]
      refine List.map_congr_left fun k' hk' => ?_
      rw [List.mem_range] at hk'
      funext w
      rw [hvit k' (by omega), hem (k' + 1) (by omega)]
    have hbest : (fun v =>
          vitAlpha p em' mask' (L + k - 1) v + p.end_transitions v)
        = fun v => vitAlpha p em mask (L - 1) v + p.end_transitions v := by
      funext v
      rw [hstabV', hstabV, hvit (n - 1) le_rfl]
    rw [hhist, hbest]

theorem C7_padding_invariance_witness :
    (0 : ℕ) < 1 ∧
      (denominator_score exP exEm exMask1 (1 + 1)
          = denominator_score exP exEm exMask1 1
        ∧ (∀ j, j < 1 → ∀ v,
            marginal_probabilities exP exEm exMask1 (1 + 1) j v
              = marginal_probabilities exP exEm exMask1 1 j v)
        ∧ viterbi_decode exP exEm exMask1 (1 + 1)
          = viterbi_decode exP exEm exMask1 1) :=
  ⟨Nat.one_pos,
    C7_padding_invariance exP exEm exEm (fun _ => rfl) Nat.one_pos le_rfl
      (fun _ _ => rfl) (fun _ _ => rfl)
      (fun i hi => by
        unfold exMask1
        simp only [decide_eq_false_iff_not]
        omega)⟩

end

end PCrf
